import Mathlib

set_option linter.unusedSectionVars false

/-!
Verification of `fastcrypto-tbls/src/polynomial.rs`: polynomial container,
evaluation, commitment, Lagrange-coefficient engine and constant-term
recovery for threshold secret sharing.

The scalar field of the group (`C::ScalarType`) is embedded as an arbitrary
field `F` with the `u128 -> scalar` conversion given by the natural-number
cast; the group `C` is an additive commutative group `G` with an `F`-module
structure (`GroupElement` scalar multiplication) and a distinguished
generator passed explicitly.  Rust `u128` values are natural numbers with
explicit reduction `% 2 ^ 128` where overflow matters.  Fallible Rust code
yields a `PResult`: a normal value, a recoverable `FastCryptoError`, or a
panic (`expect`, out-of-bounds indexing, arithmetic underflow).
-/

namespace Fastcrypto

/-- The error kind of `fastcrypto::error` that this module can surface. -/
inductive FastCryptoError where
  | InvalidInput
deriving DecidableEq

/-- Outcome of a Rust computation: a value, a recoverable error
(`FastCryptoResult`), or a panic. -/
inductive PResult (α : Type) where
  | ok : α → PResult α
  | err : FastCryptoError → PResult α
  | panic : PResult α
deriving DecidableEq

/-- Modelled from the spec: `ShareIndex` (from `crate::types`, not under
`src/`) is "an opaque positive, nonzero integer" exposing "a strictly-positive
native unsigned integer value"; every native unsigned width embeds into
`u128` via `index.get() as u128`, so its value is a positive natural below
`2 ^ 128`. -/
abbrev ShareIndex : Type := {n : ℕ // 0 < n ∧ n < 2 ^ 128}

/-- `Eval<A> = IndexedValue<A>`: one participant's share. -/
structure Eval (A : Type) where
  index : ShareIndex
  value : A
deriving DecidableEq

/-- `Poly<C>(Vec<C>)`: coefficients in ascending-degree order. -/
structure Poly (C : Type) where
  coeffs : List C
deriving DecidableEq

section Container

variable {C : Type}

/-- `degree`: `(self.0.len() - 1) as u32`.  On an empty coefficient vector the
`usize` subtraction underflows, a Rust panic, modelled as `none`; the `as u32`
truncation is the reduction `% 2 ^ 32`. -/
def Poly.degree (p : Poly C) : Option ℕ :=
  if p.coeffs.length = 0 then none else some ((p.coeffs.length - 1) % 2 ^ 32)

/-- `From<Vec<C>>`: wraps the vector, no validation. -/
def Poly.fromVec (c : List C) : Poly C :=
  Poly.mk c

/-- `c0`: `&self.0[0]`; indexing an empty vector panics, modelled as `none`. -/
def Poly.c0 (p : Poly C) : Option C :=
  p.coeffs.head?

/-- `as_vec`: the coefficient vector. -/
def Poly.as_vec (p : Poly C) : List C :=
  p.coeffs

end Container

section GroupOps

variable (F : Type) [Field F] [DecidableEq F]
variable {G : Type} [AddCommGroup G] [Module F G]
variable {A : Type}

/-- `zero`: the polynomial with the single coefficient `C::zero()`. -/
def Poly.zero : Poly G :=
  Poly.fromVec [0]

/-- `add`: in-place coefficient-wise addition.  `self` is first resized
(padded with zeros) when shorter than `other`; then each position of `self`
zipped with `other` is summed, and positions of `self` beyond `other`'s
length are left unchanged. -/
def Poly.add (p other : Poly G) : Poly G :=
  let padded := if p.coeffs.length < other.coeffs.length
    then p.coeffs ++ List.replicate (other.coeffs.length - p.coeffs.length) (0 : G)
    else p.coeffs
  Poly.mk (List.zipWith (· + ·) padded other.coeffs ++ padded.drop other.coeffs.length)

/-- `eval`: Horner's method, folding the coefficients from highest to lowest
degree with `sum * xi + coeff`, where `xi` is the scalar obtained from the
share index. -/
def Poly.eval (p : Poly G) (i : ShareIndex) : Eval G :=
  let xi : F := (i.val : F)
  Eval.mk i (p.coeffs.reverse.foldl (fun sum coeff => xi • sum + coeff) 0)

/-- Bit length of a natural number, structurally recursive on a fuel
argument; `bitLenAux 128` is exact for all `u128` values. -/
def bitLenAux : ℕ → ℕ → ℕ
  | 0, _ => 0
  | _ + 1, 0 => 0
  | fuel + 1, n + 1 => bitLenAux fuel ((n + 1) / 2) + 1

/-- `u128::leading_zeros`. -/
def u128LeadingZeros (x : ℕ) : ℕ :=
  128 - bitLenAux 128 x

/-- `fast_mult`: multiply in `u128` when the leading-zero check shows the
product fits, otherwise hand back the accumulated value as a scalar together
with the untouched second operand. -/
def fast_mult (x y : ℕ) : (F × ℕ) ⊕ ℕ :=
  if 128 - u128LeadingZeros y ≤ u128LeadingZeros x then
    Sum.inr (x * y % 2 ^ 128)
  else
    Sum.inl ((x : F), y)

/-- The `try_fold` of `get_lagrange_coefficients_for_c0`: consume the shares,
failing on the first index already in the seen-set, otherwise pushing the
index value (as `u128`) onto the accumulator. -/
def indicesFold : List (Eval A) → List ShareIndex → List ℕ → PResult (List ℕ)
  | [], _, acc => .ok acc
  | s :: rest, seen, acc =>
    if s.index ∈ seen then .err .InvalidInput
    else indicesFold rest (s.index :: seen) (acc ++ [s.index.val])

/-- One step of the per-index denominator fold of
`get_lagrange_coefficients_for_c0`: state is `(prev_acc, remaining)` together
with the captured `negative` flag; the flag is toggled when `i > j` and the
absolute difference is pushed through `fast_mult`. -/
def denomStep (i : ℕ) (st : F × ℕ × Bool) (j : ℕ) : F × ℕ × Bool :=
  let diff := if j < i then i - j else j - i
  let neg := if j < i then !st.2.2 else st.2.2
  match fast_mult F st.2.1 diff with
  | Sum.inl (remaining, d) => (st.1 * remaining, d, neg)
  | Sum.inr d => (st.1, d, neg)

/-- The denominator computed for index `i` by the per-index loop of
`get_lagrange_coefficients_for_c0`: fold over the other indices starting from
`(from(i), 1, false)`, multiply in the remaining integer product, and negate
when the sign flag is set. -/
def lagrangeDenominator (i : ℕ) (indices : List ℕ) : F :=
  let st := (indices.filter (fun j => j ≠ i)).foldl (denomStep F i) (((i : ℕ) : F), 1, false)
  let d := st.1 * (st.2.1 : F)
  if st.2.2 then -d else d

/-- The coefficient-collecting loop of `get_lagrange_coefficients_for_c0`:
for each index, divide the shared numerator by its denominator; the `expect`
on a failed field division is a panic. -/
def coeffsLoop (fullNumerator : F) (indices : List ℕ) : List ℕ → PResult (List F)
  | [] => .ok []
  | i :: rest =>
    let denominator := lagrangeDenominator F i indices
    if denominator = 0 then .panic
    else
      match coeffsLoop fullNumerator indices rest with
      | .ok coeffs => .ok (fullNumerator / denominator :: coeffs)
      | r => r

/-- Modelled from the spec: `Scalar::generator()` of the scalar-field
capability (fastcrypto groups, not under `src/`) is the multiplicative
identity — step 3 of §4.3 calls the fold started from it "the field-element
product of all `t` indices". -/
def scalarGenerator : F :=
  1

/-- `get_lagrange_coefficients_for_c0`: deduplicate and collect the share
indices, require exactly `t` of them, then return
`full_numerator / denominator` for each index. -/
def get_lagrange_coefficients_for_c0 (t : ℕ) (shares : List (Eval A)) : PResult (List F) :=
  match indicesFold shares [] [] with
  | .err e => .err e
  | .panic => .panic
  | .ok indices =>
    if indices.length ≠ t then .err .InvalidInput
    else
      let fullNumerator := indices.foldl (fun acc (i : ℕ) => acc * (i : F)) (scalarGenerator F)
      coeffsLoop F fullNumerator indices indices

/-- `recover_c0`: Lagrange coefficients zipped against the share values,
summed with scalar-times-group accumulation. -/
def recover_c0 (t : ℕ) (shares : List (Eval G)) : PResult G :=
  match get_lagrange_coefficients_for_c0 F t shares with
  | .err e => .err e
  | .panic => .panic
  | .ok coeffs =>
    let plainShares := shares.map (fun s => s.value)
    .ok ((coeffs.zip plainShares).foldl (fun acc p => acc + p.1 • p.2) 0)

/-- `verify_share`: compare the generator raised to the claimed share with
the public polynomial's evaluation at the index. -/
def verify_share [DecidableEq G] (gen : G) (p : Poly G) (idx : ShareIndex) (share : F) : PResult Unit :=
  let e := share • gen
  let pubEval := Poly.eval F p idx
  if pubEval.value = e then .ok () else .err .InvalidInput

/-- `commit`: map each scalar coefficient to the generator multiplied by it. -/
def Poly.commit (gen : G) (p : Poly F) : Poly G :=
  Poly.mk (p.coeffs.map (fun c => c • gen))

/-- Modelled from the spec: the `MultiScalarMul` capability
(fastcrypto groups, not under `src/`) returns "their combined weighted sum"
of parallel sequences of scalar weights and group elements and "may fail only
on a length mismatch" (§6). -/
def multi_scalar_mul (scalars : List F) (points : List G) : Option G :=
  if scalars.length = points.length then
    some ((scalars.zip points).foldl (fun acc p => acc + p.1 • p.2) 0)
  else
    none

/-- `recover_c0_msm`: Lagrange coefficients fed to the multi-scalar
multiplication capability; the `expect` on a length mismatch is a panic. -/
def recover_c0_msm (t : ℕ) (shares : List (Eval G)) : PResult G :=
  match get_lagrange_coefficients_for_c0 F t shares with
  | .err e => .err e
  | .panic => .panic
  | .ok coeffs =>
    let plainShares := shares.map (fun s => s.value)
    match multi_scalar_mul F coeffs plainShares with
    | some res => .ok res
    | none => .panic

/-- The denominator of §4.3 step 4, written the way the spec words it: the
index `i` combined by field multiplication with the product of the absolute
differences `|i - j|`, negated at the end when the boolean flag — toggled
once per factor with `i > j` — is set. -/
def specDenominator (i : ℕ) (indices : List ℕ) : F :=
  let others := indices.filter (fun j => j ≠ i)
  let absProd : ℕ := (others.map (fun j => if j < i then i - j else j - i)).prod
  let flips := (others.filter (fun j => j < i)).length
  let d := ((i : ℕ) : F) * (absProd : F)
  if flips % 2 = 1 then -d else d

/-- The same denominator computed entirely in the scalar field, with no
native-width fast path: the reference value for the overflow-avoidance
claim. -/
def fieldDenominator (i : ℕ) (indices : List ℕ) : F :=
  (indices.filter (fun j => j ≠ i)).foldl
    (fun acc (j : ℕ) => acc * ((j : F) - (i : F))) ((i : ℕ) : F)

/-- The field element denoted by a `(prev_acc, remaining, negative)` state of
the denominator fold: the accumulator times the remaining integer product,
negated when the flag is set. -/
def signedVal (st : F × ℕ × Bool) : F :=
  if st.2.2 then -(st.1 * (st.2.1 : F)) else st.1 * (st.2.1 : F)

/-- The coefficient loop of the reference engine, identical to `coeffsLoop`
except that every denominator is computed entirely in the scalar field. -/
def fieldCoeffsLoop (fullNumerator : F) (indices : List ℕ) : List ℕ → PResult (List F)
  | [] => .ok []
  | i :: rest =>
    let denominator := fieldDenominator F i indices
    if denominator = 0 then .panic
    else
      match fieldCoeffsLoop fullNumerator indices rest with
      | .ok coeffs => .ok (fullNumerator / denominator :: coeffs)
      | r => r

/-- The reference coefficient engine with no native-width fast path: every
difference product is accumulated in the scalar field.  Comparing it with
`get_lagrange_coefficients_for_c0` states that the fast-path/slow-path split
has no semantic effect. -/
def get_lagrange_coefficients_field_only (t : ℕ) (shares : List (Eval A)) : PResult (List F) :=
  match indicesFold shares [] [] with
  | .err e => .err e
  | .panic => .panic
  | .ok indices =>
    if indices.length ≠ t then .err .InvalidInput
    else
      let fullNumerator := indices.foldl (fun acc (i : ℕ) => acc * (i : F)) (scalarGenerator F)
      fieldCoeffsLoop F fullNumerator indices indices

/-- Coefficient list of a polynomial, as a `Polynomial` of Mathlib: the bridge
used to invoke the Lagrange interpolation theory (mathematical reference only,
not part of the embedded code). -/
noncomputable def listToPoly : List F → Polynomial F
  | [] => 0
  | c :: rest => Polynomial.C c + Polynomial.X * listToPoly rest

/-- Concrete share index `1`, used on concrete evaluations. -/
def wIdx1 : ShareIndex :=
  ⟨1, by norm_num⟩

/-- Concrete share index `2`, used on concrete evaluations. -/
def wIdx2 : ShareIndex :=
  ⟨2, by norm_num⟩

/-- Concrete share index `3`, used on concrete evaluations. -/
def wIdx3 : ShareIndex :=
  ⟨3, by norm_num⟩

end GroupOps

section ArithLemmas

/-- `bitLenAux` with enough fuel really bounds its argument. -/
lemma bitLenAux_lt : ∀ fuel n : ℕ, n < 2 ^ fuel → n < 2 ^ bitLenAux fuel n
  | 0, _, h => h
  | _ + 1, 0, _ => by simp [bitLenAux]
  | fuel + 1, n + 1, h => by
    rw [pow_succ] at h
    have h2 : (n + 1) / 2 < 2 ^ fuel := by omega
    have ih := bitLenAux_lt fuel ((n + 1) / 2) h2
    show n + 1 < 2 ^ (bitLenAux fuel ((n + 1) / 2) + 1)
    rw [pow_succ]
    omega

/-- `bitLenAux` is the least bound: any power-of-two bound dominates it. -/
lemma bitLenAux_le : ∀ fuel k n : ℕ, n < 2 ^ k → k ≤ fuel → bitLenAux fuel n ≤ k
  | 0, _, _, _, _ => Nat.zero_le _
  | _ + 1, _, 0, _, _ => by simp [bitLenAux]
  | fuel + 1, k, n + 1, h, hk => by
    cases k with
    | zero => simp at h
    | succ k =>
      rw [pow_succ] at h
      have h2 : (n + 1) / 2 < 2 ^ k := by omega
      have ih := bitLenAux_le fuel k ((n + 1) / 2) h2 (by omega)
      show bitLenAux fuel ((n + 1) / 2) + 1 ≤ k + 1
      omega

/-- The leading-zeros test of `fast_mult` guarantees that the `u128` product
does not overflow. -/
lemma fast_mult_fits {x y : ℕ} (hx : x < 2 ^ 128) (hy : y < 2 ^ 128)
    (h : 128 - u128LeadingZeros y ≤ u128LeadingZeros x) : x * y < 2 ^ 128 := by
  have hbx : bitLenAux 128 x ≤ 128 := bitLenAux_le 128 128 x hx le_rfl
  have hby : bitLenAux 128 y ≤ 128 := bitLenAux_le 128 128 y hy le_rfl
  have hsum : bitLenAux 128 x + bitLenAux 128 y ≤ 128 := by
    unfold u128LeadingZeros at h
    omega
  have h1 : x < 2 ^ bitLenAux 128 x := bitLenAux_lt 128 x hx
  have h2 : y < 2 ^ bitLenAux 128 y := bitLenAux_lt 128 y hy
  calc x * y < 2 ^ bitLenAux 128 x * 2 ^ bitLenAux 128 y := by
        exact Nat.mul_lt_mul'' h1 h2
  _ = 2 ^ (bitLenAux 128 x + bitLenAux 128 y) := (pow_add 2 _ _).symm
  _ ≤ 2 ^ 128 := Nat.pow_le_pow_right (by norm_num) hsum

variable (F : Type) [Field F] [DecidableEq F]

/-- On fitting operands `fast_mult` takes the native-width branch and the
stored product is exact. -/
lemma fast_mult_inr {x y : ℕ} (hx : x < 2 ^ 128) (hy : y < 2 ^ 128)
    (h : 128 - u128LeadingZeros y ≤ u128LeadingZeros x) :
    fast_mult F x y = Sum.inr (x * y) := by
  unfold fast_mult
  rw [if_pos h, Nat.mod_eq_of_lt (fast_mult_fits hx hy h)]

/-- A left fold of multiplications is the product. -/
lemma foldl_mul_map (f : ℕ → F) : ∀ (l : List ℕ) (a : F),
    l.foldl (fun acc i => acc * f i) a = a * (l.map f).prod
  | [], a => by simp
  | i :: rest, a => by
    simp only [List.foldl_cons, List.map_cons, List.prod_cons]
    rw [foldl_mul_map f rest (a * f i), mul_assoc]

end ArithLemmas

section DenominatorLemmas

variable (F : Type) [Field F] [DecidableEq F]

/-- One `denomStep` keeps the remaining integer product positive, in `u128`
range, and multiplies the denoted signed value by `(j : F) - (i : F)`. -/
lemma denomStep_signed (i : ℕ) (hi : i < 2 ^ 128) (j : ℕ) (hj : j < 2 ^ 128) (hne : j ≠ i)
    (st : F × ℕ × Bool) (h0 : 0 < st.2.1) (hlt : st.2.1 < 2 ^ 128) :
    0 < (denomStep F i st j).2.1 ∧ (denomStep F i st j).2.1 < 2 ^ 128 ∧
      signedVal F (denomStep F i st j) = signedVal F st * ((j : F) - (i : F)) := by
  obtain ⟨a, r, b⟩ := st
  simp only at h0 hlt
  by_cases hji : j < i
  · have hd0 : 0 < i - j := by omega
    have hdlt : i - j < 2 ^ 128 := by omega
    have hcast : (j : F) - (i : F) = -(((i - j : ℕ) : ℕ) : F) := by
      rw [Nat.cast_sub (by omega)]
      ring
    by_cases hc : 128 - u128LeadingZeros (i - j) ≤ u128LeadingZeros r
    · have hfit := fast_mult_fits hlt hdlt hc
      unfold denomStep
      dsimp only
      rw [if_pos hji, if_pos hji, fast_mult_inr F hlt hdlt hc]
      refine ⟨by positivity, hfit, ?_⟩
      cases b <;> simp [signedVal, hcast, Nat.cast_mul] <;> ring
    · unfold denomStep fast_mult
      dsimp only
      rw [if_pos hji, if_pos hji, if_neg hc]
      refine ⟨hd0, hdlt, ?_⟩
      cases b <;> simp [signedVal, hcast, Nat.cast_mul] <;> ring
  · have hij : i < j := by omega
    have hd0 : 0 < j - i := by omega
    have hdlt : j - i < 2 ^ 128 := by omega
    have hcast : (j : F) - (i : F) = (((j - i : ℕ) : ℕ) : F) := by
      rw [Nat.cast_sub (by omega)]
    by_cases hc : 128 - u128LeadingZeros (j - i) ≤ u128LeadingZeros r
    · have hfit := fast_mult_fits hlt hdlt hc
      unfold denomStep
      dsimp only
      rw [if_neg hji, if_neg hji, fast_mult_inr F hlt hdlt hc]
      refine ⟨by positivity, hfit, ?_⟩
      cases b <;> simp [signedVal, hcast, Nat.cast_mul] <;> ring
    · unfold denomStep fast_mult
      dsimp only
      rw [if_neg hji, if_neg hji, if_neg hc]
      refine ⟨hd0, hdlt, ?_⟩
      cases b <;> simp [signedVal, hcast, Nat.cast_mul] <;> ring

/-- Folding `denomStep` over a list of other indices multiplies the denoted
signed value by the field product of the differences. -/
lemma denomFold_signed (i : ℕ) (hi : i < 2 ^ 128) :
    ∀ l : List ℕ, (∀ j ∈ l, j < 2 ^ 128 ∧ j ≠ i) →
      ∀ st : F × ℕ × Bool, 0 < st.2.1 → st.2.1 < 2 ^ 128 →
        0 < (l.foldl (denomStep F i) st).2.1 ∧
          (l.foldl (denomStep F i) st).2.1 < 2 ^ 128 ∧
          signedVal F (l.foldl (denomStep F i) st) =
            signedVal F st * (l.map (fun (j : ℕ) => (j : F) - (i : F))).prod
  | [], _, st, h0, hlt => ⟨h0, hlt, by simp⟩
  | j :: rest, hl, st, h0, hlt => by
    obtain ⟨hj, hne⟩ := hl j (by simp)
    obtain ⟨s0, slt, seq⟩ := denomStep_signed F i hi j hj hne st h0 hlt
    obtain ⟨r0, rlt, req⟩ :=
      denomFold_signed i hi rest (fun k hk => hl k (by simp [hk])) (denomStep F i st j) s0 slt
    refine ⟨r0, rlt, ?_⟩
    simp only [List.foldl_cons, List.map_cons, List.prod_cons]
    rw [req, seq]
    ring

/-- The code's denominator for index `i` is `i` times the field product of the
differences `j - i` over the other indices. -/
lemma lagrangeDenominator_eq (i : ℕ) (hi : i < 2 ^ 128) (indices : List ℕ)
    (hl : ∀ j ∈ indices, j < 2 ^ 128) :
    lagrangeDenominator F i indices =
      (i : F) * ((indices.filter (fun j => j ≠ i)).map
        (fun (j : ℕ) => (j : F) - (i : F))).prod := by
  have hmem : ∀ j ∈ indices.filter (fun j => j ≠ i), j < 2 ^ 128 ∧ j ≠ i := by
    intro j hj
    rw [List.mem_filter] at hj
    exact ⟨hl j hj.1, by simpa using hj.2⟩
  obtain ⟨-, -, heq⟩ := denomFold_signed F i hi (indices.filter (fun j => j ≠ i)) hmem
    (((i : ℕ) : F), 1, false) one_pos (by norm_num)
  have hbody : lagrangeDenominator F i indices =
      signedVal F ((indices.filter (fun j => j ≠ i)).foldl (denomStep F i)
        (((i : ℕ) : F), 1, false)) := by
    unfold lagrangeDenominator signedVal
    rfl
  rw [hbody, heq]
  simp [signedVal]

/-- The reference field-only denominator computes the same product. -/
lemma fieldDenominator_eq (i : ℕ) (indices : List ℕ) :
    fieldDenominator F i indices =
      (i : F) * ((indices.filter (fun j => j ≠ i)).map
        (fun (j : ℕ) => (j : F) - (i : F))).prod := by
  unfold fieldDenominator
  rw [foldl_mul_map]

end DenominatorLemmas

section EngineLemmas

variable (F : Type) [Field F] [DecidableEq F]
variable {G : Type} [AddCommGroup G] [Module F G]
variable {A : Type}

/-- The field product of the differences is the absolute-difference product
with the parity of the `j < i` toggles as a final sign. -/
lemma spec_prod_signed (i : ℕ) : ∀ l : List ℕ,
    (l.map (fun (j : ℕ) => (j : F) - (i : F))).prod =
      if (l.filter (fun j => j < i)).length % 2 = 1
      then -(((l.map (fun j => if j < i then i - j else j - i)).prod : ℕ) : F)
      else (((l.map (fun j => if j < i then i - j else j - i)).prod : ℕ) : F)
  | [] => by simp
  | j :: rest => by
    have ih := spec_prod_signed i rest
    by_cases hji : j < i
    · have hcast : (j : F) - (i : F) = -(((i - j : ℕ) : ℕ) : F) := by
        rw [Nat.cast_sub (by omega)]
        ring
      have hfil : ((j :: rest).filter (fun j => j < i)) =
          j :: rest.filter (fun j => j < i) := by
        simp [List.filter_cons, hji]
      have hif : (if j < i then i - j else j - i) = i - j := if_pos hji
      rw [List.map_cons, List.prod_cons, hcast, ih, List.map_cons, List.prod_cons, hif,
        hfil, List.length_cons, Nat.cast_mul]
      by_cases hp : (rest.filter (fun j => j < i)).length % 2 = 1
      · rw [if_pos hp, if_neg (by omega)]
        ring
      · rw [if_neg hp, if_pos (by omega)]
        ring
    · have hcast : (j : F) - (i : F) = (((j - i : ℕ) : ℕ) : F) := by
        rw [Nat.cast_sub (by omega)]
      have hfil : ((j :: rest).filter (fun j => j < i)) =
          rest.filter (fun j => j < i) := by
        simp [List.filter_cons, hji]
      have hif : (if j < i then i - j else j - i) = j - i := if_neg hji
      rw [List.map_cons, List.prod_cons, hcast, ih, List.map_cons, List.prod_cons, hif,
        hfil, Nat.cast_mul]
      by_cases hp : (rest.filter (fun j => j < i)).length % 2 = 1
      · rw [if_pos hp, if_pos hp]
        ring
      · rw [if_neg hp, if_neg hp]

/-- The spec's description of the denominator also equals `i` times the field
product of the differences. -/
lemma specDenominator_eq (i : ℕ) (indices : List ℕ) :
    specDenominator F i indices =
      (i : F) * ((indices.filter (fun j => j ≠ i)).map
        (fun (j : ℕ) => (j : F) - (i : F))).prod := by
  unfold specDenominator
  rw [spec_prod_signed]
  by_cases hp : ((indices.filter (fun j => j ≠ i)).filter (fun j => j < i)).length % 2 = 1
  · rw [if_pos hp, if_pos hp]
    ring
  · rw [if_neg hp, if_neg hp]

/-- A nonzero difference of in-range naturals casts to a nonzero field
element, given that the field does not collapse `u128` values. -/
lemma sub_cast_ne_zero (hF : ∀ n : ℕ, 0 < n → n < 2 ^ 128 → (n : F) ≠ 0)
    {i j : ℕ} (hi : i < 2 ^ 128) (hj : j < 2 ^ 128) (hne : j ≠ i) :
    (j : F) - (i : F) ≠ 0 := by
  rcases Nat.lt_or_ge j i with h | h
  · intro hc
    apply hF (i - j) (by omega) (by omega)
    rw [Nat.cast_sub (by omega)]
    rw [show (i : F) - (j : F) = -((j : F) - (i : F)) from by ring, hc]
    ring
  · intro hc
    apply hF (j - i) (by omega) (by omega)
    rw [Nat.cast_sub (by omega), hc]

/-- Distinct in-range indices give a nonzero code denominator. -/
lemma lagrangeDenominator_ne_zero (hF : ∀ n : ℕ, 0 < n → n < 2 ^ 128 → (n : F) ≠ 0)
    {i : ℕ} (hi0 : 0 < i) (hi : i < 2 ^ 128) (indices : List ℕ)
    (hl : ∀ j ∈ indices, j < 2 ^ 128) :
    lagrangeDenominator F i indices ≠ 0 := by
  rw [lagrangeDenominator_eq F i hi indices hl]
  refine mul_ne_zero (hF i hi0 hi) (List.prod_ne_zero ?_)
  intro hc
  obtain ⟨j, hjmem, hje⟩ := List.mem_map.mp hc
  rw [List.mem_filter] at hjmem
  exact sub_cast_ne_zero F hF hi (hl j hjmem.1) (by simpa using hjmem.2) hje

/-- Successful index collection: with pairwise distinct indices disjoint from
the seen-set, the fold returns the accumulated index values. -/
lemma indicesFold_ok : ∀ (shares : List (Eval A)) (seen : List ShareIndex) (acc : List ℕ),
    (shares.map (fun s => s.index)).Nodup → (∀ s ∈ shares, s.index ∉ seen) →
    indicesFold shares seen acc = .ok (acc ++ shares.map (fun s => s.index.val))
  | [], _, acc, _, _ => by simp [indicesFold]
  | s :: rest, seen, acc, hnd, hdisj => by
    rw [List.map_cons, List.nodup_cons] at hnd
    have hs : s.index ∉ seen := hdisj s (by simp)
    have hrest : ∀ x ∈ rest, x.index ∉ s.index :: seen := by
      intro x hx
      simp only [List.mem_cons]
      rintro (h | h)
      · exact hnd.1 (h ▸ List.mem_map_of_mem (fun s => s.index) hx)
      · exact hdisj x (List.mem_cons_of_mem _ hx) h
    rw [indicesFold, if_neg hs, indicesFold_ok rest (s.index :: seen) _ hnd.2 hrest]
    simp

/-- Failing index collection: a duplicate among the shares, or a share whose
index was already seen, forces the invalid-input error. -/
lemma indicesFold_err : ∀ (shares : List (Eval A)) (seen : List ShareIndex) (acc : List ℕ),
    (¬(shares.map (fun s => s.index)).Nodup ∨ ∃ s ∈ shares, s.index ∈ seen) →
    indicesFold shares seen acc = .err .InvalidInput
  | [], _, _, h => by simp at h
  | s :: rest, seen, acc, h => by
    by_cases hs : s.index ∈ seen
    · rw [indicesFold, if_pos hs]
    · rw [indicesFold, if_neg hs]
      apply indicesFold_err rest (s.index :: seen) _
      rcases h with h | ⟨x, hx, hxs⟩
      · rcases Classical.em ((rest.map (fun s => s.index)).Nodup) with hn | hn
        · rw [List.map_cons, List.nodup_cons] at h
          have hmem : s.index ∈ rest.map (fun s => s.index) := by tauto
          obtain ⟨x, hx, hxe⟩ := List.mem_map.mp hmem
          exact Or.inr ⟨x, hx, by simp [hxe]⟩
        · exact Or.inl hn
      · rcases List.mem_cons.mp hx with rfl | hx'
        · exact absurd hxs hs
        · exact Or.inr ⟨x, hx', by simp [hxs]⟩

/-- A successful index collection returns one value per share. -/
lemma indicesFold_length : ∀ (shares : List (Eval A)) (seen : List ShareIndex)
    (acc out : List ℕ), indicesFold shares seen acc = .ok out →
    out.length = acc.length + shares.length
  | [], _, acc, out, h => by
    cases h
    simp
  | s :: rest, seen, acc, out, h => by
    rw [indicesFold] at h
    by_cases hs : s.index ∈ seen
    · rw [if_pos hs] at h
      cases h
    · rw [if_neg hs] at h
      have := indicesFold_length rest (s.index :: seen) (acc ++ [s.index.val]) out h
      simp at this
      simp [this]
      omega

/-- Every value a successful index collection returns is either accumulated
input or the value of some share index (hence positive and in `u128`
range). -/
lemma indicesFold_ok_mem : ∀ (shares : List (Eval A)) (seen : List ShareIndex)
    (acc out : List ℕ), indicesFold shares seen acc = .ok out →
    ∀ n ∈ out, n ∈ acc ∨ (0 < n ∧ n < 2 ^ 128)
  | [], _, acc, out, h => by
    cases h
    exact fun n hn => Or.inl hn
  | s :: rest, seen, acc, out, h => by
    rw [indicesFold] at h
    by_cases hs : s.index ∈ seen
    · rw [if_pos hs] at h
      cases h
    · rw [if_neg hs] at h
      intro n hn
      rcases indicesFold_ok_mem rest (s.index :: seen) (acc ++ [s.index.val]) out h n hn with hmem | hb
      · rcases List.mem_append.mp hmem with hmem | hmem
        · exact Or.inl hmem
        · right
          rw [List.mem_singleton] at hmem
          exact hmem ▸ s.index.property
      · exact Or.inr hb

/-- Successful coefficient loop: all denominators nonzero gives the list of
quotients. -/
lemma coeffsLoop_ok (num : F) (indices : List ℕ) :
    ∀ l : List ℕ, (∀ i ∈ l, lagrangeDenominator F i indices ≠ 0) →
      coeffsLoop F num indices l =
        .ok (l.map (fun i => num / lagrangeDenominator F i indices))
  | [], _ => by simp [coeffsLoop]
  | i :: rest, h => by
    have hi := h i (by simp)
    have hr := coeffsLoop_ok num indices rest (fun j hj => h j (by simp [hj]))
    simp only [coeffsLoop, hr, if_neg hi, List.map_cons]

/-- A successful coefficient loop returns one coefficient per index. -/
lemma coeffsLoop_length (num : F) (indices : List ℕ) :
    ∀ l out, coeffsLoop F num indices l = .ok out → out.length = l.length
  | [], out, h => by
    cases h
    rfl
  | i :: rest, out, h => by
    simp only [coeffsLoop] at h
    by_cases hd : lagrangeDenominator F i indices = 0
    · rw [if_pos hd] at h
      cases h
    · rw [if_neg hd] at h
      cases hrec : coeffsLoop F num indices rest with
      | ok cs =>
        rw [hrec] at h
        cases h
        simp [coeffsLoop_length num indices rest cs hrec]
      | err e =>
        rw [hrec] at h
        cases h
      | panic =>
        rw [hrec] at h
        cases h

/-- The two coefficient loops agree on in-range indices: the fast path has no
semantic effect. -/
lemma coeffsLoop_eq_field (num : F) (indices : List ℕ)
    (hb : ∀ j ∈ indices, j < 2 ^ 128) :
    ∀ l : List ℕ, (∀ j ∈ l, j < 2 ^ 128) →
      coeffsLoop F num indices l = fieldCoeffsLoop F num indices l
  | [], _ => rfl
  | i :: rest, hl => by
    have hd : lagrangeDenominator F i indices = fieldDenominator F i indices := by
      rw [lagrangeDenominator_eq F i (hl i (by simp)) indices hb, fieldDenominator_eq]
    have hr := coeffsLoop_eq_field num indices hb rest (fun j hj => hl j (by simp [hj]))
    simp only [coeffsLoop, fieldCoeffsLoop, hd, hr]

end EngineLemmas

section RecoveryLemmas

variable (F : Type) [Field F] [DecidableEq F]
variable {G : Type} [AddCommGroup G] [Module F G]
variable {A B : Type}

/-- Reduction of the engine once the index collection succeeded. -/
lemma getLagrange_fold_ok (t : ℕ) (shares : List (Eval A)) {out : List ℕ}
    (h : indicesFold shares [] [] = .ok out) :
    get_lagrange_coefficients_for_c0 F t shares =
      if out.length ≠ t then .err .InvalidInput
      else coeffsLoop F
        (out.foldl (fun acc (i : ℕ) => acc * (i : F)) (scalarGenerator F)) out out := by
  unfold get_lagrange_coefficients_for_c0
  rw [h]

/-- Reduction of the engine once the index collection failed. -/
lemma getLagrange_fold_err (t : ℕ) (shares : List (Eval A))
    (h : indicesFold shares [] [] = .err .InvalidInput) :
    get_lagrange_coefficients_for_c0 F t shares = .err .InvalidInput := by
  unfold get_lagrange_coefficients_for_c0
  rw [h]

/-- Success of the engine: distinct indices and matching count yield the
quotients of the shared numerator by the per-index denominators. -/
lemma getLagrange_ok (hF : ∀ n : ℕ, 0 < n → n < 2 ^ 128 → (n : F) ≠ 0)
    (t : ℕ) (shares : List (Eval A))
    (hnd : (shares.map (fun s => s.index)).Nodup) (hlen : shares.length = t) :
    get_lagrange_coefficients_for_c0 F t shares =
      .ok ((shares.map (fun s => s.index.val)).map
        (fun i => ((shares.map (fun s => s.index.val)).map (fun (k : ℕ) => (k : F))).prod /
          lagrangeDenominator F i (shares.map (fun s => s.index.val)))) := by
  have hvals : ∀ j ∈ shares.map (fun s => s.index.val), 0 < j ∧ j < 2 ^ 128 := by
    intro j hj
    obtain ⟨s, -, rfl⟩ := List.mem_map.mp hj
    exact s.index.property
  rw [getLagrange_fold_ok F t shares (indicesFold_ok shares [] [] hnd (by simp))]
  simp only [List.nil_append]
  rw [if_neg (by simp [hlen]), foldl_mul_map, coeffsLoop_ok]
  · simp [scalarGenerator]
  · intro i hi
    exact lagrangeDenominator_ne_zero F hF (hvals i hi).1 (hvals i hi).2 _
      (fun j hj => (hvals j hj).2)

/-- Error of the engine on a duplicate index. -/
lemma getLagrange_err_of_dup (t : ℕ) (shares : List (Eval A))
    (h : ¬(shares.map (fun s => s.index)).Nodup) :
    get_lagrange_coefficients_for_c0 F t shares = .err .InvalidInput :=
  getLagrange_fold_err F t shares (indicesFold_err shares [] [] (Or.inl h))

/-- Error of the engine on a share count different from `t`. -/
lemma getLagrange_err_of_len (t : ℕ) (shares : List (Eval A))
    (hnd : (shares.map (fun s => s.index)).Nodup) (h : shares.length ≠ t) :
    get_lagrange_coefficients_for_c0 F t shares = .err .InvalidInput := by
  rw [getLagrange_fold_ok F t shares (indicesFold_ok shares [] [] hnd (by simp))]
  rw [if_pos (by simpa using h)]

/-- A successful engine run returns one coefficient per share. -/
lemma getLagrange_length (t : ℕ) (shares : List (Eval A)) (cs : List F)
    (h : get_lagrange_coefficients_for_c0 F t shares = .ok cs) :
    cs.length = shares.length := by
  cases hIF : indicesFold shares [] [] with
  | ok out =>
    rw [getLagrange_fold_ok F t shares hIF] at h
    by_cases hl : out.length ≠ t
    · rw [if_pos hl] at h
      cases h
    · rw [if_neg hl] at h
      have h1 := coeffsLoop_length F _ out out cs h
      have h2 := indicesFold_length shares [] [] out hIF
      simp only [List.length_nil, Nat.zero_add] at h2
      omega
  | err e =>
    unfold get_lagrange_coefficients_for_c0 at h
    rw [hIF] at h
    cases h
  | panic =>
    unfold get_lagrange_coefficients_for_c0 at h
    rw [hIF] at h
    cases h

/-- The engine computes exactly what the field-only reference engine
computes: the fast path has no semantic effect. -/
lemma getLagrange_eq_field_only (t : ℕ) (shares : List (Eval A)) :
    get_lagrange_coefficients_for_c0 F t shares =
      get_lagrange_coefficients_field_only F t shares := by
  cases hIF : indicesFold shares [] [] with
  | ok out =>
    have hb : ∀ j ∈ out, j < 2 ^ 128 := by
      intro j hj
      rcases indicesFold_ok_mem shares [] [] out hIF j hj with hmem | hbd
      · simp at hmem
      · exact hbd.2
    unfold get_lagrange_coefficients_for_c0 get_lagrange_coefficients_field_only
    rw [hIF]
    dsimp only
    by_cases hl : out.length ≠ t
    · rw [if_pos hl, if_pos hl]
    · rw [if_neg hl, if_neg hl, coeffsLoop_eq_field F _ out hb out hb]
  | err e =>
    unfold get_lagrange_coefficients_for_c0 get_lagrange_coefficients_field_only
    rw [hIF]
  | panic =>
    unfold get_lagrange_coefficients_for_c0 get_lagrange_coefficients_field_only
    rw [hIF]

/-- Reduction of `recover_c0` once the engine succeeded. -/
lemma recover_c0_of_ok {cs : List F} (t : ℕ) (shares : List (Eval G))
    (h : get_lagrange_coefficients_for_c0 F t shares = .ok cs) :
    recover_c0 F t shares =
      .ok ((cs.zip (shares.map (fun s => s.value))).foldl
        (fun acc p => acc + p.1 • p.2) 0) := by
  unfold recover_c0
  rw [h]

/-- Reduction of `recover_c0_msm` once the engine succeeded with matching
lengths. -/
lemma recover_c0_msm_of_ok {cs : List F} (t : ℕ) (shares : List (Eval G))
    (h : get_lagrange_coefficients_for_c0 F t shares = .ok cs)
    (hlen : cs.length = shares.length) :
    recover_c0_msm F t shares =
      .ok ((cs.zip (shares.map (fun s => s.value))).foldl
        (fun acc p => acc + p.1 • p.2) 0) := by
  unfold recover_c0_msm multi_scalar_mul
  rw [h]
  dsimp only
  rw [if_pos (by simp [hlen])]

/-- `recover_c0` and `recover_c0_msm` agree on every input. -/
lemma recover_c0_eq_msm (t : ℕ) (shares : List (Eval G)) :
    recover_c0 F t shares = recover_c0_msm F t shares := by
  cases h : get_lagrange_coefficients_for_c0 F t shares with
  | ok cs =>
    rw [recover_c0_of_ok F t shares h,
      recover_c0_msm_of_ok F t shares h (getLagrange_length F t shares cs h)]
  | err e =>
    unfold recover_c0 recover_c0_msm
    rw [h]
  | panic =>
    unfold recover_c0 recover_c0_msm
    rw [h]

/-- A left fold of additions is the sum. -/
lemma foldl_add_map : ∀ (l : List B) (f : B → G) (a : G),
    l.foldl (fun acc x => acc + f x) a = a + (l.map f).sum
  | [], _, a => by simp
  | x :: rest, f, a => by
    simp only [List.foldl_cons, List.map_cons, List.sum_cons,
      foldl_add_map rest f (a + f x)]
    rw [add_assoc]

/-- Success value of `recover_c0`: the sum of the shares weighted by their
Lagrange coefficients. -/
lemma recover_c0_ok_sum (hF : ∀ n : ℕ, 0 < n → n < 2 ^ 128 → (n : F) ≠ 0)
    (t : ℕ) (shares : List (Eval G))
    (hnd : (shares.map (fun s => s.index)).Nodup) (hlen : shares.length = t) :
    recover_c0 F t shares = .ok ((shares.map (fun s =>
      (((shares.map (fun s => s.index.val)).map (fun (k : ℕ) => (k : F))).prod /
        lagrangeDenominator F s.index.val (shares.map (fun s => s.index.val))) •
          s.value)).sum) := by
  rw [recover_c0_of_ok F t shares (getLagrange_ok F hF t shares hnd hlen)]
  rw [List.map_map, List.zip_map', foldl_add_map]
  rw [List.map_map, zero_add]
  rfl

end RecoveryLemmas

section PolyBridge

variable (F : Type) [Field F] [DecidableEq F]

/-- The Horner fold over the reversed coefficient list is polynomial
evaluation. -/
lemma listToPoly_eval (x : F) : ∀ l : List F,
    l.reverse.foldl (fun sum c => x * sum + c) 0 = (listToPoly F l).eval x
  | [] => by simp [listToPoly]
  | c :: rest => by
    rw [List.reverse_cons, List.foldl_append]
    simp only [List.foldl_cons, List.foldl_nil]
    rw [listToPoly_eval x rest]
    simp [listToPoly]
    ring

/-- The degree of the bridged polynomial is below the coefficient count. -/
lemma listToPoly_degree : ∀ l : List F, (listToPoly F l).degree < (l.length : WithBot ℕ)
  | [] => by simp [listToPoly]
  | c :: rest => by
    have ih := listToPoly_degree rest
    have h1 : (Polynomial.C c).degree < ((rest.length + 1 : ℕ) : WithBot ℕ) :=
      lt_of_le_of_lt Polynomial.degree_C_le (by exact_mod_cast Nat.succ_pos rest.length)
    have h2 : (Polynomial.X * listToPoly F rest).degree <
        ((rest.length + 1 : ℕ) : WithBot ℕ) := by
      apply lt_of_le_of_lt (Polynomial.degree_mul_le _ _)
      rw [Polynomial.degree_X]
      have hadd : (1 : WithBot ℕ) + (listToPoly F rest).degree <
          1 + (rest.length : WithBot ℕ) :=
        WithBot.add_lt_add_left (by simp) ih
      have hco : ((rest.length + 1 : ℕ) : WithBot ℕ) = 1 + (rest.length : WithBot ℕ) := by
        push_cast
        ring
      rw [hco]
      exact hadd
    show (Polynomial.C c + Polynomial.X * listToPoly F rest).degree <
      ((rest.length + 1 : ℕ) : WithBot ℕ)
    exact lt_of_le_of_lt (Polynomial.degree_add_le _ _) (max_lt h1 h2)

/-- Evaluating the bridged polynomial at zero yields the constant term. -/
lemma listToPoly_eval_zero : ∀ l : List F, (listToPoly F l).eval 0 = l.headD 0
  | [] => by simp [listToPoly]
  | c :: rest => by simp [listToPoly]

/-- Interpolation at zero: the weighted sum of the evaluations of a
polynomial of degree below the node count, with the code's coefficients
(shared numerator over per-node denominator), is its value at zero. -/
lemma lagrange_sum_eval_zero (s : Finset ℕ)
    (hinj : Set.InjOn (fun n : ℕ => (n : F)) s)
    (h0 : ∀ i ∈ s, (i : F) ≠ 0)
    (P : Polynomial F) (hdeg : P.degree < (s.card : WithBot ℕ)) :
    ∑ i ∈ s, (∏ k ∈ s, (k : F)) / ((i : F) * ∏ j ∈ s.erase i, ((j : F) - (i : F))) *
      P.eval (i : F) = P.eval 0 := by
  have hP := Lagrange.eq_interpolate hinj hdeg
  conv_rhs => rw [hP]
  rw [Lagrange.interpolate_apply, Polynomial.eval_finset_sum]
  apply Finset.sum_congr rfl
  intro i hi
  rw [Polynomial.eval_mul, Polynomial.eval_C, mul_comm]
  congr 1
  rw [Lagrange.basis, Polynomial.eval_prod]
  have hstep : ∀ j ∈ s.erase i,
      (Lagrange.basisDivisor ((fun n : ℕ => (n : F)) i) ((fun n : ℕ => (n : F)) j)).eval 0 =
        (j : F) * ((j : F) - (i : F))⁻¹ := by
    intro j hj
    unfold Lagrange.basisDivisor
    simp only [Polynomial.eval_mul, Polynomial.eval_C, Polynomial.eval_sub,
      Polynomial.eval_X]
    rw [show ((i : F) - (j : F)) = -((j : F) - (i : F)) from by ring, inv_neg]
    ring
  rw [Finset.prod_congr rfl hstep, Finset.prod_mul_distrib, Finset.prod_inv_distrib]
  rw [← Finset.mul_prod_erase s (fun k : ℕ => (k : F)) hi,
    mul_div_mul_left _ _ (h0 i hi), div_eq_mul_inv]

end PolyBridge

section Assembly

variable (F : Type) [Field F] [DecidableEq F]
variable {G : Type} [AddCommGroup G] [Module F G]

/-- The index of an evaluation is the index it was evaluated at. -/
lemma eval_index (q : Poly G) (i : ShareIndex) : (Poly.eval F q i).index = i :=
  rfl

/-- Shares produced by `eval` carry back exactly the evaluation indices. -/
lemma shares_map_index (q : Poly G) (idxs : List ShareIndex) :
    (idxs.map (fun i => Poly.eval F q i)).map (fun s => s.index) = idxs := by
  rw [List.map_map]
  exact List.map_id'' (fun x => rfl) idxs

/-- Value form of `shares_map_index` for the underlying naturals. -/
lemma shares_map_index_val (q : Poly G) (idxs : List ShareIndex) :
    (idxs.map (fun i => Poly.eval F q i)).map (fun s => s.index.val) =
      idxs.map (fun i => i.val) := by
  rw [List.map_map]
  rfl

/-- Main interpolation identity over lists: for distinct in-range nodes and a
polynomial with at most as many coefficients as nodes, the sum of the
evaluations weighted by the code's Lagrange coefficients is the constant
term. -/
lemma recover_sum_eq_c0 (hF : ∀ n : ℕ, 0 < n → n < 2 ^ 128 → (n : F) ≠ 0)
    (p : List F) (l : List ℕ) (hnd : l.Nodup)
    (hb : ∀ j ∈ l, 0 < j ∧ j < 2 ^ 128) (hlen : p.length ≤ l.length) :
    (l.map (fun i => (l.map (fun (k : ℕ) => (k : F))).prod / lagrangeDenominator F i l *
      (listToPoly F p).eval (i : F))).sum = p.headD 0 := by
  have hinj : Set.InjOn (fun n : ℕ => (n : F)) l.toFinset := by
    intro a ha b hb' hab
    by_contra hne
    have hz : (b : F) - (a : F) = 0 := by
      simp only at hab
      rw [hab]
      ring
    exact sub_cast_ne_zero F hF (hb a (List.mem_toFinset.mp ha)).2
      (hb b (List.mem_toFinset.mp hb')).2 (fun h => hne h.symm) hz
  have h0 : ∀ i ∈ l.toFinset, (i : F) ≠ 0 := by
    intro i hi
    have hbi := hb i (List.mem_toFinset.mp hi)
    exact hF i hbi.1 hbi.2
  have hdeg : (listToPoly F p).degree < (l.toFinset.card : WithBot ℕ) := by
    apply lt_of_lt_of_le (listToPoly_degree F p)
    rw [List.toFinset_card_of_nodup hnd]
    exact_mod_cast hlen
  calc (l.map (fun i => (l.map (fun (k : ℕ) => (k : F))).prod / lagrangeDenominator F i l *
        (listToPoly F p).eval (i : F))).sum
      = ∑ i ∈ l.toFinset, (l.map (fun (k : ℕ) => (k : F))).prod /
          lagrangeDenominator F i l * (listToPoly F p).eval (i : F) :=
        (List.sum_toFinset _ hnd).symm
  _ = ∑ i ∈ l.toFinset, (∏ k ∈ l.toFinset, (k : F)) /
        ((i : F) * ∏ j ∈ l.toFinset.erase i, ((j : F) - (i : F))) *
          (listToPoly F p).eval (i : F) := by
        apply Finset.sum_congr rfl
        intro i hi
        have hbi := hb i (List.mem_toFinset.mp hi)
        have hfilnd : (l.filter (fun j => j ≠ i)).Nodup := hnd.filter _
        have hfe : (l.filter (fun j => j ≠ i)).toFinset = l.toFinset.erase i := by
          ext a
          simp only [List.mem_toFinset, List.mem_filter, Finset.mem_erase,
            decide_eq_true_eq]
          tauto
        rw [lagrangeDenominator_eq F i hbi.2 l (fun j hj => (hb j hj).2),
          ← List.prod_toFinset (fun (k : ℕ) => (k : F)) hnd,
          ← List.prod_toFinset (fun (j : ℕ) => (j : F) - (i : F)) hfilnd, hfe]
  _ = (listToPoly F p).eval 0 := lagrange_sum_eval_zero F l.toFinset hinj h0 _ hdeg
  _ = p.headD 0 := listToPoly_eval_zero F p

end Assembly

section AddEvalLemmas

variable (F : Type) [Field F] [DecidableEq F]
variable {G : Type} [AddCommGroup G] [Module F G]

/-- A replicate of zeros reads back zero at every position. -/
lemma replicate_zero_getD : ∀ m k : ℕ, (List.replicate m (0 : G)).getD k 0 = 0
  | 0, _ => by simp
  | _ + 1, 0 => by simp
  | m + 1, k + 1 => by
    rw [List.replicate_succ]
    simpa using replicate_zero_getD m k

/-- Padding with zeros does not change any read position. -/
lemma append_replicate_getD : ∀ (l : List G) (m k : ℕ),
    (l ++ List.replicate m (0 : G)).getD k 0 = l.getD k 0
  | [], m, k => by simp [replicate_zero_getD]
  | x :: xs, _, 0 => by simp
  | x :: xs, m, k + 1 => by simpa using append_replicate_getD xs m k

/-- Reading the zip-with-sum plus tail of the longer list is the sum of the
reads. -/
lemma zip_add_getD : ∀ (a b : List G), b.length ≤ a.length → ∀ k : ℕ,
    (List.zipWith (· + ·) a b ++ a.drop b.length).getD k 0 =
      a.getD k 0 + b.getD k 0
  | a, [], _, k => by simp
  | [], y :: ys, h, _ => by simp at h
  | x :: xs, y :: ys, _, 0 => by simp
  | x :: xs, y :: ys, h, k + 1 => by
    simpa using zip_add_getD xs ys (by simpa using h) k

/-- Length of the in-place sum: the longer operand's length. -/
lemma add_length (p q : Poly G) :
    (Poly.add p q).coeffs.length = max p.coeffs.length q.coeffs.length := by
  unfold Poly.add
  dsimp only
  by_cases h : p.coeffs.length < q.coeffs.length
  · rw [if_pos h]
    simp only [List.length_append, List.length_zipWith, List.length_drop,
      List.length_replicate]
    omega
  · rw [if_neg h]
    simp only [List.length_append, List.length_zipWith, List.length_drop]
    omega

/-- Coefficient of the in-place sum: the sum of the coefficients. -/
lemma add_getD (p q : Poly G) (k : ℕ) :
    (Poly.add p q).coeffs.getD k 0 = p.coeffs.getD k 0 + q.coeffs.getD k 0 := by
  unfold Poly.add
  dsimp only
  by_cases h : p.coeffs.length < q.coeffs.length
  · rw [if_pos h, zip_add_getD _ _ (by
      simp only [List.length_append, List.length_replicate]
      omega) k, append_replicate_getD]
  · rw [if_neg h, zip_add_getD _ _ (by omega) k]

/-- Horner evaluation of a generator-multiplied coefficient list is the
generator multiplied by the scalar Horner evaluation. -/
lemma foldl_horner_smul (x : F) (gen : G) : ∀ (l : List F) (a : F),
    (l.map (fun c => c • gen)).foldl (fun sum c => x • sum + c) (a • gen) =
      (l.foldl (fun sum c => x * sum + c) a) • gen
  | [], _ => by simp
  | c :: rest, a => by
    simp only [List.map_cons, List.foldl_cons]
    rw [show x • (a • gen) + c • gen = (x * a + c) • gen from by
      rw [smul_smul, add_smul], foldl_horner_smul x gen rest _]

end AddEvalLemmas

/-- C3: for each index `i` among the distinct indices, the denominator of its
Lagrange coefficient equals `i` combined by field multiplication with the
signed product, over every other index `j`, of `(i - j)`, where the sign is
tracked by a boolean flag toggled once per factor with `i > j` and applied as
a final negation of the accumulated absolute-difference product. -/
theorem C3_denominator_signed_product (F : Type) [Field F] [DecidableEq F]
    (i : ℕ) (indices : List ℕ) (hi : i < 2 ^ 128)
    (hl : ∀ j ∈ indices, j < 2 ^ 128) :
    lagrangeDenominator F i indices = specDenominator F i indices := by
  rw [lagrangeDenominator_eq F i hi indices hl, specDenominator_eq]

/-- C7: whenever `fast_mult` takes the direct native-width branch
(`x.leading_zeros() >= 128 - y.leading_zeros()`), the mathematical product
`x * y` is strictly below `2 ^ 128`, so the native multiplication never
overflows; consequently the fast-path/slow-path split leaves the Lagrange
coefficients equal to those computed entirely in the scalar field. -/
theorem C7_fast_mult_safety (F : Type) [Field F] [DecidableEq F] :
    (∀ x y : ℕ, x < 2 ^ 128 → y < 2 ^ 128 →
      128 - u128LeadingZeros y ≤ u128LeadingZeros x →
      x * y < 2 ^ 128 ∧ fast_mult F x y = Sum.inr (x * y)) ∧
    (∀ (A : Type) (t : ℕ) (shares : List (Eval A)),
      get_lagrange_coefficients_for_c0 F t shares =
        get_lagrange_coefficients_field_only F t shares) :=
  ⟨fun _ _ hx hy h => ⟨fast_mult_fits hx hy h, fast_mult_inr F hx hy h⟩,
    fun _ t shares => getLagrange_eq_field_only F t shares⟩

/-- C4: `recover_c0` and `recover_c0_msm` return identical results on every
input: the same value on success and an error in exactly the same cases. -/
theorem C4_recover_c0_msm_equivalence (F : Type) [Field F] [DecidableEq F]
    (G : Type) [AddCommGroup G] [Module F G] (t : ℕ) (shares : List (Eval G)) :
    recover_c0 F t shares = recover_c0_msm F t shares :=
  recover_c0_eq_msm F t shares

/-- C5: evaluating `p.commit()` at an index yields the generator
scalar-multiplied by `p.eval` there: commitment is a homomorphism from
scalar-polynomial evaluation to group-polynomial evaluation. -/
theorem C5_commit_eval_homomorphism (F : Type) [Field F] [DecidableEq F]
    (G : Type) [AddCommGroup G] [Module F G] (gen : G)
    (p : Poly F) (hp : p.coeffs ≠ []) (i : ShareIndex) :
    Poly.eval F (Poly.commit F gen p) i =
      Eval.mk i ((Poly.eval F p i).value • gen) := by
  unfold Poly.eval Poly.commit
  dsimp only
  congr 1
  rw [show (p.coeffs.map (fun c => c • gen)).reverse =
      p.coeffs.reverse.map (fun c => c • gen) from List.reverse_map ..]
  rw [show (0 : G) = (0 : F) • gen from (zero_smul F gen).symm]
  rw [foldl_horner_smul]
  simp only [smul_eq_mul]

/-- C6: `verify_share` succeeds exactly when the generator multiplied by the
share equals the evaluation at the index; when the share is correct, every
other scalar (any `w` different from it) yields the invalid-input error. -/
theorem C6_verify_share_iff (F : Type) [Field F] [DecidableEq F]
    (G : Type) [AddCommGroup G] [Module F G] [DecidableEq G] (gen : G)
    (p : Poly G) (hp : p.coeffs ≠ []) (idx : ShareIndex) (s : F)
    (hinj : Function.Injective (fun a : F => a • gen)) :
    (verify_share F gen p idx s = .ok () ↔
      s • gen = (Poly.eval F p idx).value) ∧
    (s • gen = (Poly.eval F p idx).value →
      ∀ w : F, w ≠ s → verify_share F gen p idx w = .err .InvalidInput) := by
  have hverify : ∀ w : F, verify_share F gen p idx w =
      if (Poly.eval F p idx).value = w • gen then .ok ()
      else .err .InvalidInput := fun w => rfl
  constructor
  · rw [hverify]
    by_cases h : (Poly.eval F p idx).value = s • gen
    · rw [if_pos h]
      simp [h.symm]
    · rw [if_neg h]
      constructor
      · intro hc
        simp at hc
      · intro hc
        exact absurd hc.symm h
  · intro hs w hw
    have hne : (Poly.eval F p idx).value ≠ w • gen := by
      rw [← hs]
      intro hc
      exact hw (hinj hc.symm)
    rw [hverify, if_neg hne]

/-- C8: after `p.add(q)` the coefficient list has length
`max (len p) (len q)` and coefficient `k` is the sum of the operands'
coefficients at `k` (additive identity when absent); no renormalization
occurs, so the length never shrinks. -/
theorem C8_add_coefficientwise (G : Type) [AddCommGroup G]
    (p q : Poly G) (hp : p.coeffs ≠ []) (hq : q.coeffs ≠ []) :
    (Poly.add p q).coeffs.length = max p.coeffs.length q.coeffs.length ∧
    ∀ k : ℕ, (Poly.add p q).coeffs.getD k 0 =
      p.coeffs.getD k 0 + q.coeffs.getD k 0 :=
  ⟨add_length p q, fun k => add_getD p q k⟩

/-- C9: with threshold `0` and no shares, the engine succeeds with the empty
coefficient list and `recover_c0` returns the group's additive identity: the
degenerate zero-threshold call is accepted. -/
theorem C9_zero_threshold_accepted (F : Type) [Field F] [DecidableEq F]
    (G : Type) [AddCommGroup G] [Module F G] :
    get_lagrange_coefficients_for_c0 F 0 ([] : List (Eval G)) = .ok ([] : List F) ∧
    recover_c0 F 0 ([] : List (Eval G)) = .ok (0 : G) :=
  ⟨rfl, rfl⟩

/-- C10: construction performs no validation, so the empty polynomial is
constructible; on it `degree` (underflowing subtraction) and `c0` (indexing
an empty vector) both panic, modelled as `none`, while on any non-empty
vector both are defined. -/
theorem C10_empty_poly_partial_accessors (C : Type) :
    ((Poly.fromVec ([] : List C)).degree = none ∧
      (Poly.fromVec ([] : List C)).c0 = none) ∧
    ∀ l : List C, l ≠ [] →
      (Poly.fromVec l).degree = some ((l.length - 1) % 2 ^ 32) ∧
      ∃ c, (Poly.fromVec l).c0 = some c := by
  refine ⟨⟨rfl, rfl⟩, ?_⟩
  intro l hl
  cases l with
  | nil => exact absurd rfl hl
  | cons c rest =>
    refine ⟨?_, ⟨c, rfl⟩⟩
    unfold Poly.fromVec Poly.degree
    rw [if_neg (by simp)]

/-- C2: the coefficient engine (and hence both recovery functions) returns
the invalid-input error exactly when two shares carry the same index or the
share count differs from `t`; in every other case all three succeed — in
particular the internal field division never fails. -/
theorem C2_invalid_input_iff (F : Type) [Field F] [DecidableEq F]
    (G : Type) [AddCommGroup G] [Module F G]
    (hF : ∀ n : ℕ, 0 < n → n < 2 ^ 128 → (n : F) ≠ 0)
    (t : ℕ) (shares : List (Eval G)) :
    (get_lagrange_coefficients_for_c0 F t shares = .err .InvalidInput ↔
      ¬(shares.map (fun s => s.index)).Nodup ∨ shares.length ≠ t) ∧
    (recover_c0 F t shares = .err .InvalidInput ↔
      ¬(shares.map (fun s => s.index)).Nodup ∨ shares.length ≠ t) ∧
    (recover_c0_msm F t shares = .err .InvalidInput ↔
      ¬(shares.map (fun s => s.index)).Nodup ∨ shares.length ≠ t) ∧
    ((shares.map (fun s => s.index)).Nodup → shares.length = t →
      (∃ cs, get_lagrange_coefficients_for_c0 F t shares = .ok cs) ∧
      (∃ v, recover_c0 F t shares = .ok v) ∧
      (∃ v, recover_c0_msm F t shares = .ok v)) := by
  have herr : (¬(shares.map (fun s => s.index)).Nodup ∨ shares.length ≠ t) →
      get_lagrange_coefficients_for_c0 F t shares = .err .InvalidInput := by
    intro h
    by_cases hnd : (shares.map (fun s => s.index)).Nodup
    · rcases h with h | h
      · exact absurd hnd h
      · exact getLagrange_err_of_len F t shares hnd h
    · exact getLagrange_err_of_dup F t shares hnd
  have hiff : get_lagrange_coefficients_for_c0 F t shares = .err .InvalidInput ↔
      ¬(shares.map (fun s => s.index)).Nodup ∨ shares.length ≠ t := by
    constructor
    · intro h
      by_contra hc
      push_neg at hc
      rw [getLagrange_ok F hF t shares hc.1 hc.2] at h
      simp at h
    · exact herr
  have hrec : recover_c0 F t shares = .err .InvalidInput ↔
      get_lagrange_coefficients_for_c0 F t shares = .err .InvalidInput := by
    cases hg : get_lagrange_coefficients_for_c0 F t shares with
    | ok cs =>
      rw [recover_c0_of_ok F t shares hg]
      simp
    | err e =>
      cases e
      unfold recover_c0
      rw [hg]
      simp
    | panic =>
      unfold recover_c0
      rw [hg]
      simp
  have hmsm : recover_c0_msm F t shares = .err .InvalidInput ↔
      get_lagrange_coefficients_for_c0 F t shares = .err .InvalidInput := by
    rw [← recover_c0_eq_msm]
    exact hrec
  have hsucc : (shares.map (fun s => s.index)).Nodup → shares.length = t →
      (∃ cs, get_lagrange_coefficients_for_c0 F t shares = .ok cs) ∧
      (∃ v, recover_c0 F t shares = .ok v) ∧
      (∃ v, recover_c0_msm F t shares = .ok v) := by
    intro h1 h2
    have hmsmok := recover_c0_ok_sum F hF t shares h1 h2
    rw [recover_c0_eq_msm] at hmsmok
    exact ⟨⟨_, getLagrange_ok F hF t shares h1 h2⟩,
      ⟨_, recover_c0_ok_sum F hF t shares h1 h2⟩, ⟨_, hmsmok⟩⟩
  exact ⟨hiff, hrec.trans hiff, hmsm.trans hiff, hsucc⟩

/-- C1: for every threshold `t ≥ 1`, scalar polynomial with at most `t`
coefficients, and evaluations at `t` distinct nonzero indices, the engine
succeeds with coefficients whose weighted sum of the evaluations is the
constant term, and `recover_c0` returns exactly the constant term. -/
theorem C1_recover_c0_roundtrip (F : Type) [Field F] [DecidableEq F]
    (hF : ∀ n : ℕ, 0 < n → n < 2 ^ 128 → (n : F) ≠ 0)
    (t : ℕ) (ht : 1 ≤ t) (p : List F) (hp : p ≠ []) (hdeg : p.length ≤ t)
    (idxs : List ShareIndex) (hnd : (idxs.map (fun i => i.val)).Nodup)
    (hlen : idxs.length = t) :
    ∃ lam : List F,
      get_lagrange_coefficients_for_c0 F t
        (idxs.map (fun i => Poly.eval F (Poly.mk p) i)) = .ok lam ∧
      ((lam.zip (idxs.map (fun i => (Poly.eval F (Poly.mk p) i).value))).map
        (fun q => q.1 * q.2)).sum = p.headD 0 ∧
      recover_c0 F t (idxs.map (fun i => Poly.eval F (Poly.mk p) i)) =
        .ok (p.headD 0) := by
  have hndx : ((idxs.map (fun i => Poly.eval F (Poly.mk p) i)).map
      (fun s => s.index)).Nodup := by
    rw [shares_map_index]
    exact hnd.of_map
  have hlens : (idxs.map (fun i => Poly.eval F (Poly.mk p) i)).length = t := by
    simp [hlen]
  have hbounds : ∀ j ∈ idxs.map (fun i => i.val), 0 < j ∧ j < 2 ^ 128 := by
    intro j hj
    obtain ⟨i, -, rfl⟩ := List.mem_map.mp hj
    exact i.property
  have hval : ∀ i : ShareIndex,
      (Poly.eval F (Poly.mk p) i).value = (listToPoly F p).eval ((i.val : F)) := by
    intro i
    show p.reverse.foldl (fun sum c => ((i.val : F)) • sum + c) 0 = _
    simp only [smul_eq_mul]
    exact listToPoly_eval F ((i.val : F)) p
  have hcore := recover_sum_eq_c0 F hF p (idxs.map (fun i => i.val)) hnd hbounds
    (by simpa [hlen] using hdeg)
  rw [List.map_map] at hcore
  have hsum : (idxs.map (fun i =>
      ((idxs.map (fun i => i.val)).map (fun (k : ℕ) => (k : F))).prod /
        lagrangeDenominator F i.val (idxs.map (fun i => i.val)) *
        (Poly.eval F (Poly.mk p) i).value)).sum = p.headD 0 := by
    rw [List.map_congr_left (fun i _ => by rw [hval i])]
    exact hcore
  refine ⟨_, getLagrange_ok F hF t _ hndx hlens, ?_, ?_⟩
  · rw [shares_map_index_val, List.map_map, List.zip_map', List.map_map]
    exact hsum
  · rw [recover_c0_ok_sum F hF t _ hndx hlens]
    rw [shares_map_index_val, List.map_map]
    congr 1

/-- `ℚ` does not collapse any `u128` value: the rational field satisfies the
characteristic hypothesis of the interpolation theorems. -/
lemma ratCharHyp : ∀ n : ℕ, 0 < n → n < 2 ^ 128 → (n : ℚ) ≠ 0 :=
  fun n hn _ => Nat.cast_ne_zero.mpr (Nat.pos_iff_ne_zero.mp hn)

/-- Witness for C1 at the spec's worked example `f(x) = 7 + 3x` over `ℚ`,
shares at indices `1` and `2`, threshold `2`. -/
theorem C1_recover_c0_roundtrip_witness :
    (∀ n : ℕ, 0 < n → n < 2 ^ 128 → (n : ℚ) ≠ 0) ∧ 1 ≤ 2 ∧
    ([(7 : ℚ), 3] ≠ []) ∧ [(7 : ℚ), 3].length ≤ 2 ∧
    (([wIdx1, wIdx2].map (fun i => i.val)).Nodup) ∧
    ([wIdx1, wIdx2] : List ShareIndex).length = 2 ∧
    (∃ lam : List ℚ,
      get_lagrange_coefficients_for_c0 ℚ 2
        ([wIdx1, wIdx2].map (fun i => Poly.eval ℚ (Poly.mk [(7 : ℚ), 3]) i)) = .ok lam ∧
      ((lam.zip ([wIdx1, wIdx2].map
          (fun i => (Poly.eval ℚ (Poly.mk [(7 : ℚ), 3]) i).value))).map
        (fun q => q.1 * q.2)).sum = [(7 : ℚ), 3].headD 0 ∧
      recover_c0 ℚ 2
        ([wIdx1, wIdx2].map (fun i => Poly.eval ℚ (Poly.mk [(7 : ℚ), 3]) i)) =
        .ok ([(7 : ℚ), 3].headD 0)) :=
  ⟨ratCharHyp, by norm_num, by simp, by simp, by decide, rfl,
    C1_recover_c0_roundtrip ℚ ratCharHyp 2 (by norm_num) [(7 : ℚ), 3] (by simp)
      (by simp) [wIdx1, wIdx2] (by decide) rfl⟩

/-- Witness for C2 on two concrete distinct shares over `ℚ` with
threshold `2`. -/
theorem C2_invalid_input_iff_witness :
    (∀ n : ℕ, 0 < n → n < 2 ^ 128 → (n : ℚ) ≠ 0) ∧
    ((get_lagrange_coefficients_for_c0 ℚ 2
        [Eval.mk wIdx1 (10 : ℚ), Eval.mk wIdx2 13] = .err .InvalidInput ↔
      ¬(([Eval.mk wIdx1 (10 : ℚ), Eval.mk wIdx2 13].map (fun s => s.index)).Nodup) ∨
        ([Eval.mk wIdx1 (10 : ℚ), Eval.mk wIdx2 13] : List (Eval ℚ)).length ≠ 2) ∧
    (recover_c0 ℚ 2 [Eval.mk wIdx1 (10 : ℚ), Eval.mk wIdx2 13] = .err .InvalidInput ↔
      ¬(([Eval.mk wIdx1 (10 : ℚ), Eval.mk wIdx2 13].map (fun s => s.index)).Nodup) ∨
        ([Eval.mk wIdx1 (10 : ℚ), Eval.mk wIdx2 13] : List (Eval ℚ)).length ≠ 2) ∧
    (recover_c0_msm ℚ 2 [Eval.mk wIdx1 (10 : ℚ), Eval.mk wIdx2 13] =
        .err .InvalidInput ↔
      ¬(([Eval.mk wIdx1 (10 : ℚ), Eval.mk wIdx2 13].map (fun s => s.index)).Nodup) ∨
        ([Eval.mk wIdx1 (10 : ℚ), Eval.mk wIdx2 13] : List (Eval ℚ)).length ≠ 2) ∧
    ((([Eval.mk wIdx1 (10 : ℚ), Eval.mk wIdx2 13].map (fun s => s.index)).Nodup) →
      ([Eval.mk wIdx1 (10 : ℚ), Eval.mk wIdx2 13] : List (Eval ℚ)).length = 2 →
      (∃ cs, get_lagrange_coefficients_for_c0 ℚ 2
        [Eval.mk wIdx1 (10 : ℚ), Eval.mk wIdx2 13] = .ok cs) ∧
      (∃ v, recover_c0 ℚ 2 [Eval.mk wIdx1 (10 : ℚ), Eval.mk wIdx2 13] = .ok v) ∧
      (∃ v, recover_c0_msm ℚ 2 [Eval.mk wIdx1 (10 : ℚ), Eval.mk wIdx2 13] = .ok v))) :=
  ⟨ratCharHyp, C2_invalid_input_iff ℚ ℚ ratCharHyp 2
    [Eval.mk wIdx1 (10 : ℚ), Eval.mk wIdx2 13]⟩

/-- Witness for C3 on a concrete index set over `ℚ`. -/
theorem C3_denominator_signed_product_witness :
    (2 : ℕ) < 2 ^ 128 ∧ (∀ j ∈ [2, 5, 1], j < 2 ^ 128) ∧
    lagrangeDenominator ℚ 2 [2, 5, 1] = specDenominator ℚ 2 [2, 5, 1] :=
  ⟨by norm_num, by decide,
    C3_denominator_signed_product ℚ 2 [2, 5, 1] (by norm_num) (by decide)⟩

/-- Witness for C5 on a concrete scalar polynomial over `ℚ` with
generator `3`. -/
theorem C5_commit_eval_homomorphism_witness :
    ((Poly.mk [(1 : ℚ), 2]).coeffs ≠ []) ∧
    Poly.eval ℚ (Poly.commit ℚ (3 : ℚ) (Poly.mk [(1 : ℚ), 2])) wIdx2 =
      Eval.mk wIdx2 ((Poly.eval ℚ (Poly.mk [(1 : ℚ), 2]) wIdx2).value • (3 : ℚ)) :=
  ⟨by simp, C5_commit_eval_homomorphism ℚ ℚ 3 (Poly.mk [(1 : ℚ), 2]) (by simp) wIdx2⟩

/-- Witness for C6 on a concrete public polynomial over `ℚ` with
generator `1`. -/
theorem C6_verify_share_iff_witness :
    ((Poly.mk [(2 : ℚ), 3]).coeffs ≠ []) ∧
    Function.Injective (fun a : ℚ => a • (1 : ℚ)) ∧
    ((verify_share ℚ (1 : ℚ) (Poly.mk [(2 : ℚ), 3]) wIdx1 5 = .ok () ↔
      (5 : ℚ) • (1 : ℚ) = (Poly.eval ℚ (Poly.mk [(2 : ℚ), 3]) wIdx1).value) ∧
    ((5 : ℚ) • (1 : ℚ) = (Poly.eval ℚ (Poly.mk [(2 : ℚ), 3]) wIdx1).value →
      ∀ w : ℚ, w ≠ 5 →
        verify_share ℚ (1 : ℚ) (Poly.mk [(2 : ℚ), 3]) wIdx1 w = .err .InvalidInput)) :=
  ⟨by simp, fun a b h => by simpa using h,
    C6_verify_share_iff ℚ ℚ (1 : ℚ) (Poly.mk [(2 : ℚ), 3]) (by simp) wIdx1 5
      (fun a b h => by simpa using h)⟩

/-- Witness for C7: a concrete in-range pair through the fast path, and the
engine compared with the field-only engine on a concrete share. -/
theorem C7_fast_mult_safety_witness :
    ((12 : ℕ) < 2 ^ 128 ∧ (10 : ℕ) < 2 ^ 128 ∧
      128 - u128LeadingZeros 10 ≤ u128LeadingZeros 12 ∧
      12 * 10 < 2 ^ 128 ∧ fast_mult ℚ 12 10 = Sum.inr (12 * 10)) ∧
    get_lagrange_coefficients_for_c0 ℚ 1 [Eval.mk wIdx3 (4 : ℚ)] =
      get_lagrange_coefficients_field_only ℚ 1 [Eval.mk wIdx3 (4 : ℚ)] :=
  ⟨⟨by norm_num, by norm_num, by decide,
    ((C7_fast_mult_safety ℚ).1 12 10 (by norm_num) (by norm_num) (by decide)).1,
    ((C7_fast_mult_safety ℚ).1 12 10 (by norm_num) (by norm_num) (by decide)).2⟩,
    (C7_fast_mult_safety ℚ).2 ℚ 1 [Eval.mk wIdx3 (4 : ℚ)]⟩

/-- Witness for C8 on two concrete non-empty polynomials over `ℚ`. -/
theorem C8_add_coefficientwise_witness :
    ((Poly.mk [(1 : ℚ), 2]).coeffs ≠ []) ∧ ((Poly.mk [(4 : ℚ)]).coeffs ≠ []) ∧
    ((Poly.add (Poly.mk [(1 : ℚ), 2]) (Poly.mk [(4 : ℚ)])).coeffs.length =
        max (Poly.mk [(1 : ℚ), 2]).coeffs.length (Poly.mk [(4 : ℚ)]).coeffs.length ∧
      ∀ k : ℕ, (Poly.add (Poly.mk [(1 : ℚ), 2]) (Poly.mk [(4 : ℚ)])).coeffs.getD k 0 =
        (Poly.mk [(1 : ℚ), 2]).coeffs.getD k 0 +
          (Poly.mk [(4 : ℚ)]).coeffs.getD k 0) :=
  ⟨by simp, by simp,
    C8_add_coefficientwise ℚ (Poly.mk [(1 : ℚ), 2]) (Poly.mk [(4 : ℚ)])
      (by simp) (by simp)⟩

/-- Witness for C10 on a concrete singleton coefficient vector over `ℚ`. -/
theorem C10_empty_poly_partial_accessors_witness :
    (([(0 : ℚ)] : List ℚ) ≠ []) ∧
    ((Poly.fromVec ([(0 : ℚ)])).degree = some ((([(0 : ℚ)]).length - 1) % 2 ^ 32) ∧
      ∃ c, (Poly.fromVec ([(0 : ℚ)])).c0 = some c) :=
  ⟨by simp, (C10_empty_poly_partial_accessors ℚ).2 [(0 : ℚ)] (by simp)⟩

end Fastcrypto
